import Mathlib

/-!
# Verification of the protonhax core logic

Shallow embedding of the escape codec (`src/shell.rs`, plus the second copy
in `src/main.rs`), the token classifier (`handle_init` in `src/handlers.rs`),
the env-file store (`write_env_file` in `src/handlers.rs` and
`apply_env_content` in `src/env_store.rs`), the selector resolver
(`resolve_target_app`, `resolve_latest_app`, `resolve_app_by_name` in
`src/handlers.rs`), and the init-path epilogue (exit-code mirroring and
context teardown).

Strings are modelled by Lean `String` (a list of characters); Rust byte
slices taken in the sources always sit at character boundaries there.
Rust functions that can panic are embedded with result type `Option`, the
panic being `none`.
-/

namespace Protonhax

/-- The double-quote character. -/
def quoteChar : Char := Char.ofNat 34

/-- The single-quote character. -/
def aposChar : Char := Char.ofNat 39

/-- The backtick character. -/
def backChar : Char := Char.ofNat 96

/-- Characters that the escaping loop prefixes with a backslash:
`matches!(c, '\\' | '"' | '$' | BACKTICK)` in `shell_escape`
(`src/shell.rs` lines 29-34, identical in `src/main.rs` lines 65-71). -/
def specialChar (c : Char) : Bool :=
  c = '\\' || c = quoteChar || c = '$' || c = backChar

/-- The trigger set of `shell_escape` in `src/shell.rs` lines 22-27:
whitespace, single quote, backslash, double quote, dollar. -/
def triggerChar (c : Char) : Bool :=
  c.isWhitespace || c = aposChar || c = '\\' || c = quoteChar || c = '$'

/-- The trigger set of the `shell_escape` copy in `src/main.rs` line 63:
whitespace, single quote, double quote, dollar — no backslash. -/
def mainTriggerChar (c : Char) : Bool :=
  c.isWhitespace || c = aposChar || c = quoteChar || c = '$'

/-- The body of the escaping loop of `shell_escape`: every special
character is prefixed with a backslash, all others are copied. -/
def escapeBody : List Char → List Char
  | [] => []
  | c :: rest =>
    if specialChar c then '\\' :: c :: escapeBody rest else c :: escapeBody rest

/-- `shell_escape` from `src/shell.rs` lines 21-40: if the value contains a
trigger character, wrap it in double quotes with the specials
backslash-prefixed; otherwise return it unchanged. -/
def shell_escape (s : String) : String :=
  if s.data.any triggerChar then
    ⟨quoteChar :: escapeBody s.data ++ [quoteChar]⟩
  else s

/-- The `shell_escape` copy in `src/main.rs` lines 62-77.  Same quoting
transform, but its trigger set omits the backslash. -/
def shell_escape_main (s : String) : String :=
  if s.data.any mainTriggerChar then
    ⟨quoteChar :: escapeBody s.data ++ [quoteChar]⟩
  else s

/-- The scan loop of `un_shell_escape` (`src/shell.rs` lines 50-75): a
backslash followed by a special character yields that character; a
backslash followed by any other character is kept together with it; a
trailing backslash is kept. -/
def unescapeBody : List Char → List Char
  | [] => []
  | [c] => [c]
  | c :: d :: rest =>
    if c = '\\' then
      if specialChar d then d :: unescapeBody rest
      else c :: d :: unescapeBody rest
    else c :: unescapeBody (d :: rest)

/-- `un_shell_escape` from `src/shell.rs` lines 43-76.  An input not both
starting and ending with a double quote is returned unchanged.  Otherwise
Rust takes the byte slice `&s[1..s.len() - 1]`; when the input is the
single character `"` this is the slice `1..0`, which panics — modelled as
`none`.  Otherwise the quotes are stripped and the body decoded. -/
def un_shell_escape (s : String) : Option String :=
  if s.data.head? = some quoteChar ∧ s.data.getLast? = some quoteChar then
    if s.data.length = 1 then none
    else some ⟨unescapeBody ((s.data.drop 1).dropLast)⟩
  else some s

/-! ## Codec lemmas -/

theorem specialChar_backslash : specialChar '\\' = true := by decide

theorem unescapeBody_cons_not_backslash {c : Char} (h : c ≠ '\\') (t : List Char) :
    unescapeBody (c :: t) = c :: unescapeBody t := by
  cases t with
  | nil => simp [unescapeBody]
  | cons d rest => simp [unescapeBody, h]

theorem unescapeBody_backslash_special {d : Char} (h : specialChar d = true) (t : List Char) :
    unescapeBody ('\\' :: d :: t) = d :: unescapeBody t := by
  simp [unescapeBody, h]

theorem unescapeBody_escapeBody (l : List Char) :
    unescapeBody (escapeBody l) = l := by
  induction l with
  | nil => rfl
  | cons c rest ih =>
    by_cases h : specialChar c = true
    · rw [escapeBody, if_pos h, unescapeBody_backslash_special h, ih]
    · have hc : c ≠ '\\' := by
        intro hc; subst hc; exact h specialChar_backslash
      rw [escapeBody, if_neg h, unescapeBody_cons_not_backslash hc, ih]

theorem quoteChar_trigger : triggerChar quoteChar = true := by decide

/-- A value with no trigger character contains no double quote. -/
theorem no_trigger_no_quote {l : List Char} (h : l.any triggerChar = false) :
    quoteChar ∉ l := by
  intro hmem
  have := List.any_eq_false.mp h quoteChar hmem
  exact this quoteChar_trigger

/-- Shared round-trip core: decoding the escape of any value gives it back. -/
theorem roundtrip_aux (v : String) :
    un_shell_escape (shell_escape v) = some v := by
  by_cases h : v.data.any triggerChar = true
  · rw [shell_escape, if_pos h]
    have hdata : (⟨quoteChar :: escapeBody v.data ++ [quoteChar]⟩ : String).data
        = quoteChar :: escapeBody v.data ++ [quoteChar] := rfl
    rw [un_shell_escape, hdata]
    have hhead : (quoteChar :: escapeBody v.data ++ [quoteChar]).head? = some quoteChar := rfl
    have hlast : (quoteChar :: escapeBody v.data ++ [quoteChar]).getLast? = some quoteChar := by
      rw [show quoteChar :: escapeBody v.data ++ [quoteChar]
          = (quoteChar :: escapeBody v.data) ++ [quoteChar] from rfl]
      exact List.getLast?_concat _
    rw [if_pos ⟨hhead, hlast⟩]
    have hlen : (quoteChar :: escapeBody v.data ++ [quoteChar]).length =
        (escapeBody v.data).length + 2 := by simp
    rw [if_neg (by omega)]
    have hdrop : ((quoteChar :: escapeBody v.data ++ [quoteChar]).drop 1).dropLast
        = escapeBody v.data := by
      simp
    rw [hdrop, unescapeBody_escapeBody]
  · have hf : v.data.any triggerChar = false := by
      cases hx : v.data.any triggerChar
      · rfl
      · exact absurd hx h
    rw [shell_escape, if_neg (by simp [hf])]
    rw [un_shell_escape]
    have : ¬ (v.data.head? = some quoteChar ∧ v.data.getLast? = some quoteChar) := by
      rintro ⟨h1, _⟩
      exact no_trigger_no_quote hf (List.mem_of_mem_head? h1)
    rw [if_neg this]

/-- C1: Round-trip law of the escape codec: for every text value `v`,
including values containing double quotes, single quotes, dollar signs,
backslashes, backticks, and whitespace,
`un_shell_escape (shell_escape v) = v`. -/
theorem c1_escape_roundtrip (v : String) :
    un_shell_escape (shell_escape v) = some v :=
  roundtrip_aux v

/-- C2: the claim says the codec is total with no error condition, but on
the one-character input `"` the Rust `un_shell_escape` takes the byte
slice `&s[1..0]`, which panics; the embedding returns `none` there. -/
theorem c2_unescape_panics_on_lone_quote :
    un_shell_escape "\"" = none := by decide

/-! ## Escape trigger condition (C6) -/

/-- The spec's description of the quoted form: wrap in double quotes and
backslash-prefix each occurrence of a special character. -/
def specQuoteWrap (v : String) : String :=
  ⟨quoteChar :: (v.data.flatMap fun c => if specialChar c then ['\\', c] else [c])
    ++ [quoteChar]⟩

theorem escapeBody_eq_flatMap (l : List Char) :
    escapeBody l = l.flatMap fun c => if specialChar c then ['\\', c] else [c] := by
  induction l with
  | nil => rfl
  | cons c rest ih => by_cases h : specialChar c = true <;> simp [escapeBody, h, ih]

theorem length_le_escapeBody (l : List Char) : l.length ≤ (escapeBody l).length := by
  induction l with
  | nil => simp [escapeBody]
  | cons c rest ih => by_cases h : specialChar c = true <;> simp [escapeBody, h] <;> omega

/-- The quoted form is never equal to the original value: it is strictly
longer. -/
theorem wrapped_ne (v : String) :
    (⟨quoteChar :: escapeBody v.data ++ [quoteChar]⟩ : String) ≠ v := by
  intro he
  have hd : quoteChar :: escapeBody v.data ++ [quoteChar] = v.data :=
    congrArg String.data he
  have hlen : (quoteChar :: escapeBody v.data ++ [quoteChar]).length = v.data.length :=
    congrArg List.length hd
  have h2 : (quoteChar :: escapeBody v.data ++ [quoteChar]).length =
      (escapeBody v.data).length + 2 := by simp
  have := length_le_escapeBody v.data
  omega

/-- C6 counterexample: the claim asserts that each copy of `shell_escape`
returns `v` unchanged iff `v` contains none of {whitespace, single quote,
double quote, backslash, dollar}.  The copy in `src/main.rs` omits the
backslash from its trigger set, so on the one-character value `\` it
returns the value unchanged although the value contains a backslash. -/
theorem c6_counterexample :
    ¬ (shell_escape_main "\\" = "\\" ↔ ("\\" : String).data.any triggerChar = false) := by
  decide

/-- C6 (amended): the `src/shell.rs` copy of `shell_escape` returns `v`
unchanged iff `v` contains none of {whitespace, single quote, double
quote, backslash, dollar}, and otherwise returns `v` wrapped in double
quotes with every backslash, double quote, dollar or backtick prefixed by
a backslash; the `src/main.rs` copy satisfies the same property with the
backslash removed from the trigger set. -/
theorem c6_escape_trigger (v : String) :
    (shell_escape v = v ↔ v.data.any triggerChar = false) ∧
    (v.data.any triggerChar = true → shell_escape v = specQuoteWrap v) ∧
    (shell_escape_main v = v ↔ v.data.any mainTriggerChar = false) ∧
    (v.data.any mainTriggerChar = true → shell_escape_main v = specQuoteWrap v) := by
  refine ⟨⟨?_, ?_⟩, ?_, ⟨?_, ?_⟩, ?_⟩
  · intro he
    by_contra hne
    have ht : v.data.any triggerChar = true := by
      cases hx : v.data.any triggerChar
      · exact absurd hx hne
      · rfl
    rw [shell_escape, if_pos ht] at he
    exact wrapped_ne v he
  · intro hf
    rw [shell_escape, if_neg (by simp [hf])]
  · intro ht
    rw [shell_escape, if_pos ht, specQuoteWrap, escapeBody_eq_flatMap]
  · intro he
    by_contra hne
    have ht : v.data.any mainTriggerChar = true := by
      cases hx : v.data.any mainTriggerChar
      · exact absurd hx hne
      · rfl
    rw [shell_escape_main, if_pos ht] at he
    exact wrapped_ne v he
  · intro hf
    rw [shell_escape_main, if_neg (by simp [hf])]
  · intro ht
    rw [shell_escape_main, if_pos ht, specQuoteWrap, escapeBody_eq_flatMap]

/-- Witness for C6 at the concrete value `" "` (a single space). -/
theorem c6_escape_trigger_witness : shell_escape " " = "\" \"" :=
  ((c6_escape_trigger " ").2.1 (by decide)).trans (by decide)

/-! ## Token classifier -/

/-- `is_env_assignment` from `src/shell.rs` lines 1-18: the token contains
`=` (at byte index `eq`, found by `s.find('=')`), and the part before it
starts with an underscore or ASCII letter followed by underscores or
ASCII alphanumerics. -/
def is_env_assignment (s : String) : Bool :=
  match s.data.findIdx? (fun d => d == '=') with
  | none => false
  | some eq =>
    match s.data.take eq with
    | [] => false
    | c :: rest => (c == '_' || c.isAlpha) && rest.all fun d => d == '_' || d.isAlphanum

/-- The spec's identifier grammar `[A-Za-z_][A-Za-z0-9_]*`. -/
def identName : List Char → Bool
  | [] => false
  | c :: rest => (c == '_' || c.isAlpha) && rest.all fun d => d == '_' || d.isAlphanum

/-- The spec's wording of the assignment test: the token contains `=` and
the substring before the first `=` matches the identifier grammar. -/
def isAssignSpec (s : String) : Bool :=
  s.data.any (fun d => d == '=') && identName (s.data.takeWhile fun d => !(d == '='))

theorem take_findIdx?_eq_takeWhile {α} (p : α → Bool) :
    ∀ (l : List α) (i : Nat), l.findIdx? p = some i →
      l.take i = l.takeWhile fun d => !(p d) := by
  intro l
  induction l with
  | nil => intro i h; simp [List.findIdx?] at h
  | cons a t ih =>
    intro i h
    rw [List.findIdx?_cons] at h
    by_cases hp : p a = true
    · simp [hp] at h
      subst h
      simp [List.takeWhile_cons, hp]
    · have hp' : p a = false := by
        cases hx : p a
        · rfl
        · exact absurd hx hp
      simp [hp'] at h
      obtain ⟨j, hj, rfl⟩ := h
      simp [List.takeWhile_cons, hp', ih j hj]

theorem findIdx?_eq_none_iff_all {α} (p : α → Bool) (l : List α) :
    l.findIdx? p = none ↔ l.all fun d => !(p d) := by
  rw [List.findIdx?_eq_none_iff, List.all_eq_true]
  constructor
  · intro h x hx
    simp [h x hx]
  · intro h x hx
    have := h x hx
    simpa using this

theorem is_env_assignment_eq_spec (s : String) :
    is_env_assignment s = isAssignSpec s := by
  unfold is_env_assignment isAssignSpec
  cases hx : s.data.findIdx? (fun d => d == '=') with
  | none =>
    have hall := List.findIdx?_eq_none_iff.mp hx
    have hany : s.data.any (fun d => d == '=') = false := by
      cases hy : s.data.any fun d => d == '='
      · rfl
      · obtain ⟨x, hx1, hx2⟩ := List.any_eq_true.mp hy
        have := hall x hx1
        simp [hx2] at this
    simp [hany]
  | some i =>
    have htake := take_findIdx?_eq_takeWhile _ _ _ hx
    have hany : s.data.any (fun d => d == '=') = true := by
      by_contra hne
      have hnone : s.data.findIdx? (fun d => d == '=') = none := by
        apply List.findIdx?_eq_none_iff.mpr
        intro x hxm
        cases hy : (x == '=')
        · rfl
        · exact absurd (List.any_eq_true.mpr ⟨x, hxm, hy⟩) hne
      rw [hnone] at hx
      cases hx
    simp only [htake, hany, Bool.true_and]
    cases hl : s.data.takeWhile fun d => !(d == '=') with
    | nil => simp [identName]
    | cons c rest => simp [identName]

theorem drop_findIdx?_eq_dropWhile {α} (p : α → Bool) :
    ∀ (l : List α) (i : Nat), l.findIdx? p = some i →
      l.drop i = l.dropWhile fun d => !(p d) := by
  intro l
  induction l with
  | nil => intro i h; simp [List.findIdx?] at h
  | cons a t ih =>
    intro i h
    rw [List.findIdx?_cons] at h
    by_cases hp : p a = true
    · simp [hp] at h
      subst h
      simp [List.dropWhile_cons, hp]
    · have hp' : p a = false := by
        cases hx : p a
        · rfl
        · exact absurd hx hp
      simp [hp'] at h
      obtain ⟨j, hj, rfl⟩ := h
      simp [List.dropWhile_cons, hp', ih j hj]

/-- Parse failures of the `init` command classification
(`src/handlers.rs` lines 44-81): malformed shell quoting, no command
after the assignments, or no proton path among the arguments. -/
inductive ParseError where
  | noCommand
  | noExecutable
  | malformed (msg : String)
deriving DecidableEq, Repr

/-- The classification result: the accumulated assignment tokens, the
real argv, and the located executable token (a member of the argv). -/
structure RealCommand where
  assigns : List String
  argv : List String
  exe : String
deriving DecidableEq, Repr

/-- Rust `str::contains`: the needle occurs as a substring of the hay. -/
def containsSubstring (hay needle : String) : Bool :=
  hay.data.tails.any fun t => needle.data.isPrefixOf t

/-- The token-classification core of `handle_init`
(`src/handlers.rs` lines 61-81): find the position of the first token that
is not an environment assignment (none → `noCommand`), take the remaining
tokens as the real argv, and find the first argv token containing the
substring `/proton` (none → `noExecutable`). -/
def classifyTokens (tokens : List String) : Except ParseError RealCommand :=
  match tokens.findIdx? (fun arg => !(is_env_assignment arg)) with
  | none => .error .noCommand
  | some i =>
    match (tokens.drop i).find? (fun arg => containsSubstring arg "/proton") with
    | none => .error .noExecutable
    | some p => .ok ⟨tokens.take i, tokens.drop i, p⟩

/-- The spec's wording of classification: accumulate the maximal leading
prefix of assignment tokens, fail with `noCommand` when every token
matches, otherwise the rest is the real argv and the executable is its
first member containing `/proton`, failing with `noExecutable` when there
is none. -/
def classifySpec (tokens : List String) : Except ParseError RealCommand :=
  match tokens.dropWhile (fun t => isAssignSpec t) with
  | [] => .error .noCommand
  | real =>
    match real.find? (fun arg => containsSubstring arg "/proton") with
    | none => .error .noExecutable
    | some p => .ok ⟨tokens.takeWhile (fun t => isAssignSpec t), real, p⟩

/-- C4: Token classification: the maximal leading prefix of identifier
assignments is stripped, an all-assignment (or empty) token list fails
with the `no command` error, and otherwise the executable is the first
remaining token containing `/proton`, with the `no executable` failure
when no such token exists — the embedded `handle_init` classification
equals the spec-worded classification on every token sequence. -/
theorem c4_classification (tokens : List String) :
    classifyTokens tokens = classifySpec tokens := by
  unfold classifyTokens classifySpec
  cases hx : tokens.findIdx? (fun arg => !(is_env_assignment arg)) with
  | none =>
    have hall := List.findIdx?_eq_none_iff.mp hx
    have hnil : tokens.dropWhile (fun t => isAssignSpec t) = [] := by
      rw [List.dropWhile_eq_nil_iff]
      intro x hxm
      have := hall x hxm
      rw [← is_env_assignment_eq_spec]
      simpa using this
    rw [hnil]
  | some i =>
    have htake := take_findIdx?_eq_takeWhile _ _ _ hx
    have hdrop := drop_findIdx?_eq_dropWhile _ _ _ hx
    have hfun : (fun d => !((fun arg => !(is_env_assignment arg)) d))
        = fun t => isAssignSpec t := by
      funext t
      simp [is_env_assignment_eq_spec]
    rw [hfun] at htake hdrop
    have hlt : i < tokens.length :=
      (List.findIdx?_eq_some_iff_findIdx_eq.mp hx).1
    have hne : tokens.dropWhile (fun t => isAssignSpec t) ≠ [] := by
      rw [← hdrop]
      intro hcon
      have := List.drop_eq_nil_iff.mp hcon
      omega
    rw [← hdrop, ← htake]
    cases hd : tokens.drop i with
    | nil => exact absurd (hdrop ▸ hd) hne
    | cons r rs =>
      simp only [hd]

/-! ## Re-splitting a single opaque token (C5) -/

/-- Quoting state of the word splitter. -/
inductive SplitState where
  | normal
  | single
  | double
deriving DecidableEq, Repr

/-- Modelled from the spec: the POSIX-shell word splitting performed by the
external `shell_words::split` crate call in `handle_init`
(`src/handlers.rs` line 46), whose source is not part of this repository.
The spec says: "re-split it using POSIX-shell word-splitting rules
(quoting and escaping honored); failure to split (unbalanced quotes) is a
fatal `ParseError::Malformed`".  Arguments: quoting state, remaining
input, word in progress (`none` = between words), words produced. -/
def posixSplitAux : SplitState → List Char → Option (List Char) → List (List Char) →
    Except String (List (List Char))
  | .normal, [], none, ws => .ok ws
  | .normal, [], some w, ws => .ok (ws ++ [w])
  | .normal, c :: rest, cur, ws =>
    if c.isWhitespace then
      match cur with
      | none => posixSplitAux .normal rest none ws
      | some w => posixSplitAux .normal rest none (ws ++ [w])
    else if c = aposChar then posixSplitAux .single rest (some (cur.getD [])) ws
    else if c = quoteChar then posixSplitAux .double rest (some (cur.getD [])) ws
    else if c = '\\' then
      match rest with
      | [] => .error "trailing backslash"
      | d :: rest' =>
        if d = '\n' then posixSplitAux .normal rest' cur ws
        else posixSplitAux .normal rest' (some (cur.getD [] ++ [d])) ws
    else posixSplitAux .normal rest (some (cur.getD [] ++ [c])) ws
  | .single, [], _, _ => .error "unbalanced single quote"
  | .single, c :: rest, cur, ws =>
    if c = aposChar then posixSplitAux .normal rest cur ws
    else posixSplitAux .single rest (some (cur.getD [] ++ [c])) ws
  | .double, [], _, _ => .error "unbalanced double quote"
  | .double, c :: rest, cur, ws =>
    if c = quoteChar then posixSplitAux .normal rest cur ws
    else if c = '\\' then
      match rest with
      | [] => .error "trailing backslash"
      | d :: rest' =>
        if d = '$' ∨ d = backChar ∨ d = quoteChar ∨ d = '\\' then
          posixSplitAux .double rest' (some (cur.getD [] ++ [d])) ws
        else if d = '\n' then posixSplitAux .double rest' cur ws
        else posixSplitAux .double rest' (some (cur.getD [] ++ ['\\', d])) ws
    else posixSplitAux .double rest (some (cur.getD [] ++ [c])) ws

/-- Modelled from the spec: `shell_words::split` at its interface. -/
def splitWords (s : String) : Except String (List String) :=
  (posixSplitAux .normal s.data none []).map fun ws => ws.map fun w => (⟨w⟩ : String)

/-- The full `handle_init` token preparation (`src/handlers.rs` lines
44-59 followed by 61-81): a single token containing whitespace is
re-split before classification; everything else is classified as is. -/
def classify : List String → Except ParseError RealCommand
  | [s] =>
    if s.data.any Char.isWhitespace then
      match splitWords s with
      | .error e => .error (.malformed e)
      | .ok v => classifyTokens v
    else classifyTokens [s]
  | tokens => classifyTokens tokens

theorem classify_singleton (t : String) (h : t.data.any Char.isWhitespace = false) :
    classify [t] = classifyTokens [t] := by
  show (if t.data.any Char.isWhitespace then
      match splitWords t with
      | .error e => .error (.malformed e)
      | .ok v => classifyTokens v
    else classifyTokens [t]) = classifyTokens [t]
  rw [if_neg (by simp [h])]

deriving instance DecidableEq for Except

/-- C5 counterexample: the single token `"/opt/proton run"` (with literal
double quotes) contains whitespace and is well-formed under POSIX
word-splitting, yet classifying it after re-splitting differs from
running the classifier on the re-split token sequence: the re-split
yields the single whitespace-containing token `/opt/proton run`, which
the classifier would split once more. -/
theorem c5_counterexample :
    splitWords "\"/opt/proton run\"" = .ok ["/opt/proton run"] ∧
    classify ["\"/opt/proton run\""] ≠ classify ["/opt/proton run"] := by
  decide

/-- C5 (amended): re-split equivalence holds whenever the re-split token
sequence is not itself a single whitespace-containing token: for every
command string `s` containing whitespace whose POSIX split succeeds,
classifying `[s]` agrees with classifying the split sequence. -/
theorem c5_resplit_equivalence (s : String) (ts : List String)
    (hw : s.data.any Char.isWhitespace = true)
    (hs : splitWords s = .ok ts)
    (hns : ts.length ≠ 1 ∨ ∀ t ∈ ts, t.data.any Char.isWhitespace = false) :
    classify [s] = classify ts := by
  have h1 : classify [s] = classifyTokens ts := by
    show (if s.data.any Char.isWhitespace then
        match splitWords s with
        | .error e => .error (.malformed e)
        | .ok v => classifyTokens v
      else classifyTokens [s]) = classifyTokens ts
    rw [if_pos (by simp [hw]), hs]
  rw [h1]
  cases ts with
  | nil => rfl
  | cons t ts' =>
    cases ts' with
    | nil =>
      rcases hns with h | h
      · simp at h
      · have hwt := h t (by simp)
        rw [classify_singleton t hwt]
    | cons u us => rfl

/-- Witness for C5 at the spec's example: the single token
`FOO=1 /opt/proton run game.exe` classifies the same as the pre-split
sequence. -/
theorem c5_resplit_equivalence_witness :
    classify ["FOO=1 /opt/proton run game.exe"]
      = classify ["FOO=1", "/opt/proton", "run", "game.exe"] :=
  c5_resplit_equivalence _ _ (by decide) (by decide) (Or.inl (by decide))

/-! ## Env file store (C3) -/

/-- One line of the env file as written by `write_env_file`
(`src/handlers.rs` lines 496-499): `declare -x KEY=ESCAPED_VALUE`. -/
def envLine (key value : String) : String :=
  "declare -x " ++ key ++ "=" ++ shell_escape value

/-- The whole env file content written by `write_env_file`: one line per
environment entry, each terminated by a newline (`writeln!`). -/
def writeEnvContent (env : List (String × String)) : String :=
  ⟨env.flatMap fun kv => (envLine kv.1 kv.2).data ++ ['\n']⟩

/-- Rust `str::lines` terminator split: segments between `\n` characters,
with no empty trailing segment after a final `\n`. -/
def splitTermNL : List Char → List (List Char)
  | [] => [[]]
  | c :: rest =>
    if c = '\n' then [] :: splitTermNL rest
    else
      match splitTermNL rest with
      | [] => [[c]]
      | w :: ws => (c :: w) :: ws

/-- Rust `str::lines` drops one trailing `\r` per line (`\r\n` endings). -/
def stripCR (l : List Char) : List Char :=
  if l.getLast? = some '\r' then l.dropLast else l

/-- Rust `str::lines`. -/
def rustLines (s : List Char) : List (List Char) :=
  let segs := splitTermNL s
  (if segs.getLast? = some [] then segs.dropLast else segs).map stripCR

/-- Rust `str::trim` on the character list. -/
def trimL (l : List Char) : List Char :=
  ((l.dropWhile Char.isWhitespace).reverse.dropWhile Char.isWhitespace).reverse

/-- The literal line prefix `declare -x `. -/
def declarePrefixL : List Char := "declare -x ".data

/-- `parse_export_line` from `src/env_store.rs` lines 38-44: trim the
line, strip the `declare -x ` prefix, split at the first `=`, trim name
and raw value. -/
def parse_export_line (line : String) : Option (String × String) :=
  let t := trimL line.data
  if declarePrefixL.isPrefixOf t then
    let rest := t.drop declarePrefixL.length
    match rest.findIdx? (fun d => d == '=') with
    | none => none
    | some i => some (⟨trimL (rest.take i)⟩, ⟨trimL (rest.drop (i + 1))⟩)
  else none

/-- The pairs applied by `apply_env_content` (`src/env_store.rs` lines
30-36): every parsed `declare -x` line contributes its name and the
decoded value (decoding via the possibly-panicking `un_shell_escape`). -/
def loadEnvPairs (content : String) : List (String × Option String) :=
  (rustLines content.data).filterMap fun l =>
    (parse_export_line ⟨l⟩).map fun nv => (nv.1, un_shell_escape nv.2)

/-- An identifier character (underscore or ASCII alphanumeric) is not a
newline, not `=`, not a carriage return, and not whitespace. -/
theorem identChar_facts {c : Char} (h : (c == '_' || c.isAlphanum) = true) :
    (c == '\n') = false ∧ (c == '=') = false ∧ c.isWhitespace = false := by
  rcases (by simpa using h : c = '_' ∨ c.isAlphanum = true) with h1 | h2
  · subst h1
    decide
  · refine ⟨?_, ?_, ?_⟩
    · cases hb : (c == '\n')
      · rfl
      · have hc : c = '\n' := by simpa using hb
        subst hc
        exact absurd h2 (by decide)
    · cases hb : (c == '=')
      · rfl
      · have hc : c = '=' := by simpa using hb
        subst hc
        exact absurd h2 (by decide)
    · cases hb : c.isWhitespace
      · rfl
      · have hc : ((c = ' ' ∨ c = '\t') ∨ c = '\r') ∨ c = '\n' := by
          simpa [Char.isWhitespace] using hb
        rcases hc with ((hc | hc) | hc) | hc <;> (subst hc; exact absurd h2 (by decide))

/-- Every character of a valid identifier is an identifier character. -/
theorem identName_chars {k : List Char} (h : identName k = true) :
    ∀ c ∈ k, (c == '_' || c.isAlphanum) = true := by
  cases k with
  | nil => simp [identName] at h
  | cons c rest =>
    rw [identName] at h
    obtain ⟨h1, h2⟩ : ((c == '_' || c.isAlpha) = true) ∧
        (rest.all fun d => d == '_' || d.isAlphanum) = true := by simpa using h
    intro d hd
    rcases List.mem_cons.mp hd with rfl | hdm
    · rcases (by simpa using h1 : d = '_' ∨ d.isAlpha = true) with hu | ha
      · simp [hu]
      · simp [Char.isAlphanum, ha]
    · have := List.all_eq_true.mp h2 d hdm
      simpa using this

theorem identName_ne_nil {k : List Char} (h : identName k = true) : k ≠ [] := by
  intro hc
  subst hc
  simp [identName] at h

/-- Characters of the escaped body are backslashes or characters of the
original value. -/
theorem mem_escapeBody {c : Char} : ∀ {l : List Char}, c ∈ escapeBody l → c = '\\' ∨ c ∈ l := by
  intro l
  induction l with
  | nil => intro h; simp [escapeBody] at h
  | cons d rest ih =>
    intro h
    rw [escapeBody] at h
    by_cases hd : specialChar d = true
    · rw [if_pos hd] at h
      rcases List.mem_cons.mp h with rfl | h'
      · exact Or.inl rfl
      · rcases List.mem_cons.mp h' with rfl | h'' <;>
          [exact Or.inr (List.mem_cons_self _ _);
           rcases ih h'' with hl | hr <;> [exact Or.inl hl; exact Or.inr (List.mem_cons_of_mem _ hr)]]
    · rw [if_neg hd] at h
      rcases List.mem_cons.mp h with rfl | h'
      · exact Or.inr (List.mem_cons_self _ _)
      · rcases ih h' with hl | hr <;> [exact Or.inl hl; exact Or.inr (List.mem_cons_of_mem _ hr)]

/-- Escaping a newline-free value yields a newline-free string. -/
theorem shell_escape_no_newline {v : String}
    (hv : ∀ c ∈ v.data, (c == '\n') = false) :
    ∀ c ∈ (shell_escape v).data, (c == '\n') = false := by
  intro c hc
  rw [shell_escape] at hc
  by_cases ht : v.data.any triggerChar = true
  · rw [if_pos (by simp [ht])] at hc
    have hc' : c ∈ quoteChar :: escapeBody v.data ++ [quoteChar] := hc
    rcases List.mem_cons.mp hc' with rfl | h'
    · decide
    · rcases List.mem_append.mp h' with h'' | h''
      · rcases mem_escapeBody h'' with rfl | hm
        · decide
        · exact hv c hm
      · have : c = quoteChar := by simpa using h''
        subst this
        decide
  · rw [if_neg (by simpa using ht)] at hc
    exact hv c hc

theorem dropWhile_eq_self_of_head {α} (p : α → Bool) {l : List α}
    (h : ∀ c, l.head? = some c → p c = false) : l.dropWhile p = l := by
  cases l with
  | nil => rfl
  | cons a t =>
    have := h a rfl
    simp [List.dropWhile_cons, this]

/-- Trimming a word whose first and last characters are not whitespace is
the identity. -/
theorem trimL_eq_self {l : List Char}
    (h1 : ∀ c, l.head? = some c → c.isWhitespace = false)
    (h2 : ∀ c, l.getLast? = some c → c.isWhitespace = false) :
    trimL l = l := by
  rw [trimL, dropWhile_eq_self_of_head _ h1, dropWhile_eq_self_of_head, List.reverse_reverse]
  intro c hc
  rw [List.head?_reverse] at hc
  exact h2 c hc

theorem splitTermNL_ne_nil : ∀ (s : List Char), splitTermNL s ≠ [] := by
  intro s
  induction s with
  | nil => simp [splitTermNL]
  | cons c rest ih =>
    rw [splitTermNL]
    by_cases hc : c = '\n'
    · simp [hc]
    · rw [if_neg hc]
      cases hs : splitTermNL rest with
      | nil => simp
      | cons w ws => simp

theorem splitTermNL_append {l : List Char} (hl : ∀ c ∈ l, (c == '\n') = false) :
    ∀ (rest : List Char), splitTermNL (l ++ '\n' :: rest) = l :: splitTermNL rest := by
  induction l with
  | nil => intro rest; simp [splitTermNL]
  | cons c t ih =>
    intro rest
    have hc : ¬ (c = '\n') := by
      have := hl c (List.mem_cons_self _ _)
      simpa using this
    have ht : ∀ d ∈ t, (d == '\n') = false := fun d hd => hl d (List.mem_cons_of_mem _ hd)
    rw [List.cons_append, splitTermNL, if_neg hc, ih ht]

/-- `str::lines` of a newline-terminated line followed by the rest. -/
theorem rustLines_cons {l : List Char} (hl : ∀ c ∈ l, (c == '\n') = false)
    (rest : List Char) :
    rustLines (l ++ '\n' :: rest) = stripCR l :: rustLines rest := by
  rw [rustLines, rustLines, splitTermNL_append hl]
  cases hsegs : splitTermNL rest with
  | nil => exact absurd hsegs (splitTermNL_ne_nil rest)
  | cons x xs =>
    by_cases hlast : (x :: xs).getLast? = some ([] : List Char)
    · rw [List.getLast?_cons_cons, hlast, if_pos rfl, if_pos rfl]
      rw [List.dropLast_cons_of_ne_nil (by simp), List.map_cons]
    · rw [List.getLast?_cons_cons, if_neg hlast, if_neg hlast, List.map_cons]

theorem rustLines_nil : rustLines [] = [] := by decide

/-- A member of a value with no trigger character is not whitespace. -/
theorem not_ws_of_no_trigger {l : List Char} (hf : l.any triggerChar = false)
    {c : Char} (hm : c ∈ l) : c.isWhitespace = false := by
  have hnt := List.any_eq_false.mp hf c hm
  cases hw : c.isWhitespace
  · rfl
  · exact absurd (by simp [triggerChar, hw]) hnt

/-- The escaped form of a value neither starts nor ends with whitespace. -/
theorem shell_escape_head_last (v : String) :
    (∀ c, (shell_escape v).data.head? = some c → c.isWhitespace = false) ∧
    (∀ c, (shell_escape v).data.getLast? = some c → c.isWhitespace = false) := by
  by_cases ht : v.data.any triggerChar = true
  · rw [shell_escape, if_pos (by simp [ht])]
    constructor
    · intro c hc
      have : quoteChar = c := by simpa using hc
      subst this
      decide
    · intro c hc
      rw [show quoteChar :: escapeBody v.data ++ [quoteChar]
          = (quoteChar :: escapeBody v.data) ++ [quoteChar] from rfl,
        List.getLast?_concat] at hc
      have : quoteChar = c := by simpa using hc
      subst this
      decide
  · have hf : v.data.any triggerChar = false := by
      cases hx : v.data.any triggerChar
      · rfl
      · exact absurd hx ht
    rw [shell_escape, if_neg (by simp [hf])]
    exact ⟨fun c hc => not_ws_of_no_trigger hf (List.mem_of_mem_head? hc),
      fun c hc => not_ws_of_no_trigger hf (List.mem_of_getLast?_eq_some hc)⟩

theorem envLine_data (k v : String) :
    (envLine k v).data = declarePrefixL ++ (k.data ++ '=' :: (shell_escape v).data) := by
  show ("declare -x " ++ k ++ "=" ++ shell_escape v).data = _
  rw [String.data_append, String.data_append, String.data_append]
  rw [declarePrefixL, List.append_assoc, List.append_assoc]
  rfl

/-- The last character of an env line is not whitespace: it is the closing
quote of the escaped value, a non-whitespace character of an unescaped
value, or the `=` of an empty unescaped value. -/
theorem envLine_getLast_ws (k v : String) :
    ∀ c, (envLine k v).data.getLast? = some c → c.isWhitespace = false := by
  intro c hc
  rw [envLine_data, List.getLast?_append, List.getLast?_append] at hc
  cases hesc : (shell_escape v).data with
  | nil =>
    rw [hesc] at hc
    have : '=' = c := by simpa using hc
    subst this
    decide
  | cons e es =>
    obtain ⟨x, hx⟩ := Option.isSome_iff_exists.mp
      (List.getLast?_isSome.mpr (by simp) : ((e :: es).getLast?).isSome)
    rw [hesc] at hc
    rw [show ('=' :: e :: es).getLast? = (e :: es).getLast? from List.getLast?_cons_cons,
      hx] at hc
    have hcx : x = c := by simpa using hc
    subst hcx
    exact (shell_escape_head_last v).2 x (by rw [hesc]; exact hx)

theorem envLine_stripCR (k v : String) :
    stripCR (envLine k v).data = (envLine k v).data := by
  rw [stripCR]
  by_cases hx : (envLine k v).data.getLast? = some '\r'
  · have := envLine_getLast_ws k v '\r' hx
    exact absurd this (by decide)
  · rw [if_neg hx]

theorem findIdx?_eq_append {l : List Char} (h : ∀ c ∈ l, (c == '=') = false) :
    ∀ (r : List Char),
      (l ++ '=' :: r).findIdx? (fun d => d == '=') = some l.length := by
  induction l with
  | nil => intro r; simp [List.findIdx?_cons]
  | cons c t ih =>
    intro r
    have hc := h c (List.mem_cons_self _ _)
    have ht : ∀ d ∈ t, (d == '=') = false := fun d hd => h d (List.mem_cons_of_mem _ hd)
    rw [List.cons_append, List.findIdx?_cons]
    simp only [hc, Bool.false_eq_true, if_false, List.findIdx?_start_succ, ih ht,
      Option.map_some', List.length_cons]

/-- Parsing an env line written for a valid identifier name and a
newline-free value recovers the name and the escaped value verbatim. -/
theorem parse_envLine {k v : String} (hk : identName k.data = true) :
    parse_export_line (envLine k v) = some (k, shell_escape v) := by
  have hkc := identName_chars hk
  have hkws : ∀ c ∈ k.data, c.isWhitespace = false :=
    fun c hc => (identChar_facts (hkc c hc)).2.2
  have hkeq : ∀ c ∈ k.data, (c == '=') = false :=
    fun c hc => (identChar_facts (hkc c hc)).2.1
  have htrim : trimL (envLine k v).data = (envLine k v).data := by
    apply trimL_eq_self
    · intro c hc
      rw [envLine_data] at hc
      have : 'd' = c := by simpa [declarePrefixL] using hc
      subst this
      decide
    · exact envLine_getLast_ws k v
  rw [parse_export_line]
  show (if declarePrefixL.isPrefixOf (trimL (envLine k v).data) then _ else _) = _
  rw [htrim, envLine_data]
  have hpfx : declarePrefixL.isPrefixOf
      (declarePrefixL ++ (k.data ++ '=' :: (shell_escape v).data)) = true :=
    List.isPrefixOf_iff_prefix.mpr (List.prefix_append _ _)
  rw [if_pos hpfx]
  rw [List.drop_left]
  show (match List.findIdx? (fun d => d == '=') (k.data ++ '=' :: (shell_escape v).data) with
    | none => none
    | some i => some ((⟨trimL ((k.data ++ '=' :: (shell_escape v).data).take i)⟩ : String),
        (⟨trimL ((k.data ++ '=' :: (shell_escape v).data).drop (i + 1))⟩ : String)))
    = some (k, shell_escape v)
  rw [findIdx?_eq_append hkeq]
  show some ((⟨trimL ((k.data ++ '=' :: (shell_escape v).data).take k.data.length)⟩ : String),
      (⟨trimL ((k.data ++ '=' :: (shell_escape v).data).drop (k.data.length + 1))⟩ : String))
    = some (k, shell_escape v)
  have htake : (k.data ++ '=' :: (shell_escape v).data).take k.data.length = k.data :=
    List.take_left _ _
  have hdrop : (k.data ++ '=' :: (shell_escape v).data).drop (k.data.length + 1)
      = (shell_escape v).data := by
    rw [← List.drop_drop, List.drop_left]
    rfl
  rw [htake, hdrop]
  have htrimk : trimL k.data = k.data :=
    trimL_eq_self (fun c hc => hkws c (List.mem_of_mem_head? hc))
      (fun c hc => hkws c (List.mem_of_getLast?_eq_some hc))
  have htrime : trimL (shell_escape v).data = (shell_escape v).data :=
    trimL_eq_self (shell_escape_head_last v).1 (shell_escape_head_last v).2
  rw [htrimk, htrime]

theorem declarePrefixL_no_newline : ∀ c ∈ declarePrefixL, (c == '\n') = false := by
  decide

/-- An env line written for a valid identifier name and a newline-free
value contains no newline. -/
theorem envLine_no_newline {k v : String} (hk : identName k.data = true)
    (hv : ∀ c ∈ v.data, (c == '\n') = false) :
    ∀ c ∈ (envLine k v).data, (c == '\n') = false := by
  intro c hc
  rw [envLine_data] at hc
  rcases List.mem_append.mp hc with h1 | h2
  · exact declarePrefixL_no_newline c h1
  · rcases List.mem_append.mp h2 with h3 | h4
    · exact (identChar_facts (identName_chars hk c h3)).1
    · rcases List.mem_cons.mp h4 with rfl | h5
      · decide
      · exact shell_escape_no_newline hv c h5

/-- Shared core of C3: writing the env file for identifier-named,
newline-free entries and parsing it back reproduces every pair. -/
theorem env_roundtrip_aux (env : List (String × String))
    (hname : ∀ kv ∈ env, identName kv.1.data = true)
    (hval : ∀ kv ∈ env, ∀ c ∈ kv.2.data, (c == '\n') = false) :
    loadEnvPairs (writeEnvContent env) = env.map fun kv => (kv.1, some kv.2) := by
  induction env with
  | nil => simp [loadEnvPairs, writeEnvContent, rustLines_nil]
  | cons kv env' ih =>
    obtain ⟨k, v⟩ := kv
    have hk := hname _ (List.mem_cons_self _ _)
    have hv := hval _ (List.mem_cons_self _ _)
    have hcontent : (writeEnvContent ((k, v) :: env')).data
        = (envLine k v).data ++ '\n' :: (writeEnvContent env').data := by
      simp [writeEnvContent]
    rw [loadEnvPairs, hcontent, rustLines_cons (envLine_no_newline hk hv),
      envLine_stripCR, List.filterMap_cons]
    have hparse : parse_export_line ⟨(envLine k v).data⟩ = some (k, shell_escape v) :=
      parse_envLine hk
    rw [hparse]
    show ((k, un_shell_escape (shell_escape v)) ::
        (rustLines (writeEnvContent env').data).filterMap fun l =>
          (parse_export_line ⟨l⟩).map fun nv => (nv.1, un_shell_escape nv.2))
      = _
    rw [roundtrip_aux, List.map_cons]
    have ih' := ih (fun kv h => hname kv (List.mem_cons_of_mem _ h))
      (fun kv h => hval kv (List.mem_cons_of_mem _ h))
    rw [loadEnvPairs] at ih'
    rw [ih']

/-- C3 counterexample: the claim includes values containing newlines, but
an env value containing a newline splits its `declare -x` line in two:
writing `[("K", "a\nb")]` and reading it back yields the damaged pair
`("K", "\"a")` instead of the original. -/
theorem c3_counterexample :
    loadEnvPairs (writeEnvContent [("K", "a\nb")]) = [("K", some "\"a")] ∧
    ("\"a" : String) ≠ "a\nb" := by
  decide

/-- C3 (amended): for every process environment with valid identifier
names and values free of newline characters (quotes, backslashes, dollar
signs, and non-newline whitespace all allowed), writing the env file via
`create` and reading it back via `load_environment` reproduces every
(name, value) pair originally passed. -/
theorem c3_env_roundtrip (env : List (String × String))
    (hname : ∀ kv ∈ env, identName kv.1.data = true)
    (hval : ∀ kv ∈ env, ∀ c ∈ kv.2.data, (c == '\n') = false) :
    loadEnvPairs (writeEnvContent env) = env.map fun kv => (kv.1, some kv.2) :=
  env_roundtrip_aux env hname hval

/-- Witness for C3 at a concrete two-entry environment with whitespace,
dollar and quote characters in the values. -/
theorem c3_env_roundtrip_witness :
    loadEnvPairs (writeEnvContent [("PATH", "/usr/bin:/usr/local"), ("MSG", "a b \"$X\"")])
      = [("PATH", some "/usr/bin:/usr/local"), ("MSG", some "a b \"$X\"")] :=
  c3_env_roundtrip _ (by decide) (by decide)

/-! ## Selector resolver (C7, C8, C10) -/

/-- A context summary as built by `collect_running_apps`
(`src/handlers.rs` lines 18-24 and 360-391): appid (the directory name),
the resolved manifest name when requested, and the parsed `started_at`.
The context directory path is always the runtime root joined with the
appid, so it is not repeated here. -/
structure RunningApp where
  appid : String
  name : Option String
  started_at : Option Nat
deriving DecidableEq, Repr

/-- A resolved target (`src/handlers.rs` lines 26-29). -/
structure TargetApp where
  appid : String
deriving DecidableEq, Repr

/-- The resolution failures of `resolve_target_app` and its helpers; every
one of them makes the tool call `process::exit(2)`. -/
inductive ResolutionError where
  | noneRunning
  | notFound
  | ambiguousLatest
  | ambiguousName (candidates : List (String × Option String))
deriving DecidableEq, Repr

/-- All resolution failures exit with code 2 (`process::exit(2)` at
`src/handlers.rs` lines 287, 315, 339, 344). -/
def resolutionExitCode : ResolutionError → Nat := fun _ => 2

/-- Rust `str::eq_ignore_ascii_case` (ASCII lowercasing both sides). -/
def eqIgnoreAsciiCase (a b : String) : Bool :=
  (a.data.map Char.toLower) == (b.data.map Char.toLower)

/-- `contains_case_insensitive` from `src/handlers.rs` lines 513-515:
lowercase both strings and test substring containment. -/
def contains_case_insensitive (text query : String) : Bool :=
  (text.data.map Char.toLower).tails.any fun t =>
    (query.data.map Char.toLower).isPrefixOf t

/-- One step of Rust `Iterator::max_by_key`: a later element replaces the
accumulator when its key is greater or equal, so of several equal maxima
the last one wins. -/
def maxStep (acc : Option (Nat × RunningApp)) (p : Nat × RunningApp) :
    Option (Nat × RunningApp) :=
  match acc with
  | none => some p
  | some q => if q.1 ≤ p.1 then some p else some q

/-- `max_by_key(|(started_at, _)| *started_at)` over the pairs. -/
def maxByStartedLast (l : List (Nat × RunningApp)) : Option (Nat × RunningApp) :=
  l.foldl maxStep none

/-- `resolve_latest_app` from `src/handlers.rs` lines 280-316. -/
def resolve_latest_app (apps : List RunningApp) : Except ResolutionError TargetApp :=
  if apps.isEmpty = true then .error .noneRunning
  else
    match maxByStartedLast (apps.filterMap fun app =>
        app.started_at.map fun t => (t, app)) with
    | some p => .ok ⟨p.2.appid⟩
    | none =>
      match apps with
      | [app] => .ok ⟨app.appid⟩
      | _ => .error .ambiguousLatest

/-- The filter of `resolve_app_by_name` (`src/handlers.rs` lines 320-327):
contexts whose resolved name contains the query case-insensitively. -/
def nameMatches (apps : List RunningApp) (query : String) : List RunningApp :=
  apps.filter fun app =>
    match app.name with
    | some n => contains_case_insensitive n query
    | none => false

/-- `resolve_app_by_name` from `src/handlers.rs` lines 318-346. -/
def resolve_app_by_name (apps : List RunningApp) (query : String) :
    Except ResolutionError TargetApp :=
  match nameMatches apps query with
  | [app] => .ok ⟨app.appid⟩
  | [] => .error .notFound
  | ms => .error (.ambiguousName (ms.map fun app => (app.appid, app.name)))

/-- `resolve_target_app` from `src/handlers.rs` lines 264-278.  The Rust
code tests `phd.join(selector).is_dir()`; the context directories are
exactly the per-appid directories enumerated into `apps`, so directory
existence is membership of the selector among the appids. -/
def resolve_target_app (apps : List RunningApp) (selector : String) :
    Except ResolutionError TargetApp :=
  if eqIgnoreAsciiCase selector "latest" = true then resolve_latest_app apps
  else if (apps.any fun app => app.appid == selector) = true then .ok ⟨selector⟩
  else resolve_app_by_name apps selector

theorem foldl_maxStep_some (t : List (Nat × RunningApp)) : ∀ (p : Nat × RunningApp),
    ∃ r, t.foldl maxStep (some p) = some r ∧ (r = p ∨ r ∈ t) ∧
      p.1 ≤ r.1 ∧ (∀ x ∈ t, x.1 ≤ r.1) := by
  induction t with
  | nil =>
    intro p
    exact ⟨p, rfl, Or.inl rfl, le_refl _, by simp⟩
  | cons q t ih =>
    intro p
    rw [List.foldl_cons]
    by_cases h : p.1 ≤ q.1
    · rw [show maxStep (some p) q = some q from by simp [maxStep, h]]
      obtain ⟨r, h1, h2, h3, h4⟩ := ih q
      refine ⟨r, h1, ?_, le_trans h h3, ?_⟩
      · rcases h2 with rfl | hm
        · exact Or.inr (List.mem_cons_self _ _)
        · exact Or.inr (List.mem_cons_of_mem _ hm)
      · intro x hx
        rcases List.mem_cons.mp hx with rfl | hx'
        · exact h3
        · exact h4 x hx'
    · rw [show maxStep (some p) q = some p from by simp [maxStep, h]]
      obtain ⟨r, h1, h2, h3, h4⟩ := ih p
      refine ⟨r, h1, ?_, h3, ?_⟩
      · rcases h2 with rfl | hm
        · exact Or.inl rfl
        · exact Or.inr (List.mem_cons_of_mem _ hm)
      · intro x hx
        rcases List.mem_cons.mp hx with rfl | hx'
        · exact le_trans (le_of_lt (Nat.lt_of_not_le h)) h3
        · exact h4 x hx'

theorem resolve_latest_app_def (apps : List RunningApp) :
    resolve_latest_app apps =
      if apps.isEmpty = true then .error .noneRunning
      else
        match maxByStartedLast (apps.filterMap fun app =>
            app.started_at.map fun t => (t, app)) with
        | some p => .ok ⟨p.2.appid⟩
        | none =>
          match apps with
          | [app] => .ok ⟨app.appid⟩
          | _ => .error .ambiguousLatest := rfl

/-- C7: Resolution of the selector `latest` (matched case-insensitively):
with no contexts it fails `noneRunning` (exit 2); when at least one
context has a parsed `started_at` it returns a context with the maximal
`started_at`; when none has a `started_at` and exactly one context exists
it returns that one; when none has a `started_at` and two or more exist
it fails ambiguously (exit 2). -/
theorem c7_resolve_latest (apps : List RunningApp) (selector : String)
    (hsel : eqIgnoreAsciiCase selector "latest" = true) :
    (apps = [] → resolve_target_app apps selector = .error .noneRunning ∧
      resolutionExitCode .noneRunning = 2) ∧
    ((∃ a ∈ apps, a.started_at.isSome = true) →
      ∃ c ∈ apps, ∃ m, resolve_target_app apps selector = .ok ⟨c.appid⟩ ∧
        c.started_at = some m ∧
        ∀ a ∈ apps, ∀ t, a.started_at = some t → t ≤ m) ∧
    (∀ a, apps = [a] → a.started_at = none →
      resolve_target_app apps selector = .ok ⟨a.appid⟩) ∧
    ((∀ a ∈ apps, a.started_at = none) → 2 ≤ apps.length →
      resolve_target_app apps selector = .error .ambiguousLatest ∧
      resolutionExitCode .ambiguousLatest = 2) := by
  have hres : resolve_target_app apps selector = resolve_latest_app apps := by
    rw [resolve_target_app, if_pos hsel]
  refine ⟨?_, ?_, ?_, ?_⟩
  · intro h
    subst h
    rw [hres]
    exact ⟨rfl, rfl⟩
  · rintro ⟨a, ha, hsome⟩
    obtain ⟨t0, hs⟩ := Option.isSome_iff_exists.mp hsome
    have hne : apps ≠ [] := List.ne_nil_of_mem ha
    have hmem : (t0, a) ∈ apps.filterMap fun app => app.started_at.map fun t => (t, app) :=
      List.mem_filterMap.mpr ⟨a, ha, by rw [hs]; rfl⟩
    cases hfl : apps.filterMap fun app => app.started_at.map fun t => (t, app) with
    | nil => rw [hfl] at hmem; cases hmem
    | cons p tl =>
      obtain ⟨r, h1, h2, h3, h4⟩ := foldl_maxStep_some tl p
      have hmax : maxByStartedLast (apps.filterMap fun app =>
          app.started_at.map fun t => (t, app)) = some r := by
        rw [hfl]
        exact h1
      have hrfl : r ∈ apps.filterMap fun app => app.started_at.map fun t => (t, app) := by
        rw [hfl]
        rcases h2 with rfl | hm
        · exact List.mem_cons_self _ _
        · exact List.mem_cons_of_mem _ hm
      obtain ⟨c, hc, hcr⟩ := List.mem_filterMap.mp hrfl
      obtain ⟨tc, htc, heq⟩ := Option.map_eq_some'.mp hcr
      subst heq
      refine ⟨c, hc, tc, ?_, htc, ?_⟩
      · rw [hres, resolve_latest_app_def, if_neg (by simp [hne]), hmax]
      · intro a' ha' t ht
        have hmem' : (t, a') ∈ apps.filterMap fun app =>
            app.started_at.map fun t => (t, app) :=
          List.mem_filterMap.mpr ⟨a', ha', by rw [ht]; rfl⟩
        rw [hfl] at hmem'
        rcases List.mem_cons.mp hmem' with he | hm
        · have : (t, a').1 = p.1 := by rw [he]
          simpa using le_trans (le_of_eq this) h3
        · exact h4 _ hm
  · intro a h hnone
    subst h
    rw [hres, resolve_latest_app_def, if_neg (by simp)]
    have hfl : ([a].filterMap fun app => app.started_at.map fun t => (t, app)) = [] := by
      simp [hnone]
    rw [hfl]
    rfl
  · intro hall hlen
    have hne : apps ≠ [] := by
      intro h
      subst h
      simp at hlen
    rw [hres, resolve_latest_app_def, if_neg (by simp [hne])]
    have hfl : (apps.filterMap fun app => app.started_at.map fun t => (t, app)) = [] := by
      rw [List.filterMap_eq_nil_iff]
      intro a ha
      rw [hall a ha]
      rfl
    rw [hfl]
    cases apps with
    | nil => simp at hlen
    | cons a tl =>
      cases tl with
      | nil => simp at hlen
      | cons b tl' => exact ⟨rfl, rfl⟩

/-- Witness for C7: resolving `latest` over an empty context list fails
with `noneRunning`. -/
theorem c7_resolve_latest_witness :
    resolve_target_app [] "latest" = .error .noneRunning :=
  ((c7_resolve_latest [] "latest" (by decide)).1 rfl).1

theorem resolve_app_by_name_def (apps : List RunningApp) (query : String) :
    resolve_app_by_name apps query =
      match nameMatches apps query with
      | [app] => .ok ⟨app.appid⟩
      | [] => .error .notFound
      | ms => .error (.ambiguousName (ms.map fun app => (app.appid, app.name))) := rfl

/-- C8: Name-based selector resolution: for a selector that is not
`latest` and does not name an existing context directory, the resolver
keeps the contexts whose resolved name contains the selector
case-insensitively; exactly one match is returned, zero matches fail
`notFound` (exit 2), and two or more fail ambiguously (exit 2) carrying
the candidate (appid, name) pairs. -/
theorem c8_resolve_by_name (apps : List RunningApp) (selector : String)
    (hsel : eqIgnoreAsciiCase selector "latest" = false)
    (hdir : (apps.any fun app => app.appid == selector) = false) :
    (∀ a, nameMatches apps selector = [a] →
      resolve_target_app apps selector = .ok ⟨a.appid⟩) ∧
    (nameMatches apps selector = [] →
      resolve_target_app apps selector = .error .notFound ∧
      resolutionExitCode .notFound = 2) ∧
    (2 ≤ (nameMatches apps selector).length →
      resolve_target_app apps selector = .error (.ambiguousName
        ((nameMatches apps selector).map fun app => (app.appid, app.name))) ∧
      resolutionExitCode (.ambiguousName
        ((nameMatches apps selector).map fun app => (app.appid, app.name))) = 2) := by
  have hres : resolve_target_app apps selector = resolve_app_by_name apps selector := by
    rw [resolve_target_app, if_neg (by simp [hsel]), if_neg (by simp [hdir])]
  refine ⟨?_, ?_, ?_⟩
  · intro a h
    rw [hres, resolve_app_by_name_def, h]
  · intro h
    rw [hres, resolve_app_by_name_def, h]
    exact ⟨rfl, rfl⟩
  · intro h
    cases hm : nameMatches apps selector with
    | nil =>
      rw [hm] at h
      simp at h
    | cons a tl =>
      cases tl with
      | nil =>
        rw [hm] at h
        simp at h
      | cons b tl' =>
        rw [hres, resolve_app_by_name_def, hm]
        exact ⟨rfl, rfl⟩

/-- Witness for C8: the selector `gunfire` resolves the single context
named `Gunfire Reborn`. -/
theorem c8_resolve_by_name_witness :
    resolve_target_app [⟨"1217060", some "Gunfire Reborn", none⟩] "gunfire"
      = .ok ⟨"1217060"⟩ :=
  (c8_resolve_by_name [⟨"1217060", some "Gunfire Reborn", none⟩] "gunfire"
    (by decide) (by decide)).1 ⟨"1217060", some "Gunfire Reborn", none⟩ (by decide)

/-! ## Deterministic tie-break for `latest` (C10) -/

/-- The maximum scan started from `p` over a tail whose appids strictly
increase and all exceed `p`'s: the result is a member, has the maximal
key, and among the elements with the maximal key it has the greatest
appid (a later tied element always replaces the accumulator). -/
theorem foldl_maxStep_sorted (t : List (Nat × RunningApp)) : ∀ (p : Nat × RunningApp),
    (∀ x ∈ t, p.2.appid < x.2.appid) →
    t.Pairwise (fun x y => x.2.appid < y.2.appid) →
    ∃ r, t.foldl maxStep (some p) = some r ∧ (r = p ∨ r ∈ t) ∧
      (∀ x, (x = p ∨ x ∈ t) → x.1 ≤ r.1) ∧
      (∀ x, (x = p ∨ x ∈ t) → x.1 = r.1 → x.2.appid ≤ r.2.appid) := by
  induction t with
  | nil =>
    intro p _ _
    refine ⟨p, rfl, Or.inl rfl, ?_, ?_⟩
    · rintro x (rfl | hx)
      · exact le_refl _
      · cases hx
    · rintro x (rfl | hx) _
      · exact le_refl _
      · cases hx
  | cons q t ih =>
    intro p hp hpw
    rw [List.foldl_cons]
    have hpq : p.2.appid < q.2.appid := hp q (List.mem_cons_self _ _)
    obtain ⟨hqt, htw⟩ := List.pairwise_cons.mp hpw
    by_cases h : p.1 ≤ q.1
    · rw [show maxStep (some p) q = some q from by simp [maxStep, h]]
      obtain ⟨r, h1, h2, h3, h4⟩ := ih q hqt htw
      refine ⟨r, h1, ?_, ?_, ?_⟩
      · rcases h2 with rfl | hm
        · exact Or.inr (List.mem_cons_self _ _)
        · exact Or.inr (List.mem_cons_of_mem _ hm)
      · rintro x (rfl | hx)
        · exact le_trans h (h3 q (Or.inl rfl))
        · rcases List.mem_cons.mp hx with rfl | hx'
          · exact h3 x (Or.inl rfl)
          · exact h3 x (Or.inr hx')
      · rintro x (rfl | hx) hkey
        · have hlt : x.2.appid < r.2.appid := by
            rcases h2 with rfl | hm
            · exact hpq
            · exact hp r (List.mem_cons_of_mem _ hm)
          exact le_of_lt hlt
        · rcases List.mem_cons.mp hx with rfl | hx'
          · exact h4 x (Or.inl rfl) hkey
          · exact h4 x (Or.inr hx') hkey
    · rw [show maxStep (some p) q = some p from by simp [maxStep, h]]
      have hpt : ∀ x ∈ t, p.2.appid < x.2.appid :=
        fun x hx => hp x (List.mem_cons_of_mem _ hx)
      obtain ⟨r, h1, h2, h3, h4⟩ := ih p hpt htw
      have hqp : q.1 < p.1 := Nat.lt_of_not_le h
      refine ⟨r, h1, ?_, ?_, ?_⟩
      · rcases h2 with rfl | hm
        · exact Or.inl rfl
        · exact Or.inr (List.mem_cons_of_mem _ hm)
      · rintro x (rfl | hx)
        · exact h3 x (Or.inl rfl)
        · rcases List.mem_cons.mp hx with rfl | hx'
          · exact le_trans (le_of_lt hqp) (h3 p (Or.inl rfl))
          · exact h3 x (Or.inr hx')
      · rintro x (rfl | hx) hkey
        · exact h4 x (Or.inl rfl) hkey
        · rcases List.mem_cons.mp hx with rfl | hx'
          · have := h3 p (Or.inl rfl)
            omega
          · exact h4 x (Or.inr hx') hkey

/-- Strictly ascending appids survive the started-at pairing. -/
theorem pairwise_filterMap_started {apps : List RunningApp}
    (h : apps.Pairwise fun x y => x.appid < y.appid) :
    (apps.filterMap fun app => app.started_at.map fun t => (t, app)).Pairwise
      fun x y => x.2.appid < y.2.appid := by
  refine List.pairwise_filterMap.mpr (List.Pairwise.imp_of_mem ?_ h)
  intro a b _ _ hab
  intro x hx y hy
  obtain ⟨ta, hta, rfl⟩ := Option.map_eq_some'.mp hx
  obtain ⟨tb, htb, rfl⟩ := Option.map_eq_some'.mp hy
  exact hab

/-- C10: Deterministic tie-break for `latest`: when two or more contexts
share the identical maximal `started_at` value and the context list is
sorted ascending by appid (as `collect_running_apps` produces it),
`resolve_latest_app` returns the context with the lexicographically
greatest appid among the tied ones — the maximum scan keeps the last of
equally maximal elements. -/
theorem c10_latest_tiebreak (apps : List RunningApp) (m : Nat)
    (hsorted : apps.Pairwise fun x y => x.appid < y.appid)
    (hmax : ∀ a ∈ apps, a.started_at.all (fun t => t ≤ m) = true)
    (htie : ∃ a ∈ apps, ∃ b ∈ apps, a ≠ b ∧
      a.started_at = some m ∧ b.started_at = some m) :
    ∃ c ∈ apps, resolve_latest_app apps = .ok ⟨c.appid⟩ ∧ c.started_at = some m ∧
      ∀ d ∈ apps, d.started_at = some m → d.appid ≤ c.appid := by
  obtain ⟨a, ha, b, hb, hab, hsa, hsb⟩ := htie
  have hne : apps ≠ [] := List.ne_nil_of_mem ha
  have hmem : (m, a) ∈ apps.filterMap fun app => app.started_at.map fun t => (t, app) :=
    List.mem_filterMap.mpr ⟨a, ha, by rw [hsa]; rfl⟩
  have hpw := pairwise_filterMap_started hsorted
  cases hfl : apps.filterMap fun app => app.started_at.map fun t => (t, app) with
  | nil =>
    rw [hfl] at hmem
    cases hmem
  | cons p tl =>
    rw [hfl] at hpw
    obtain ⟨hpt, htw⟩ := List.pairwise_cons.mp hpw
    obtain ⟨r, h1, h2, h3, h4⟩ := foldl_maxStep_sorted tl p hpt htw
    have hmaxr : maxByStartedLast (apps.filterMap fun app =>
        app.started_at.map fun t => (t, app)) = some r := by
      rw [hfl]
      exact h1
    have hrfl : r ∈ apps.filterMap fun app => app.started_at.map fun t => (t, app) := by
      rw [hfl]
      rcases h2 with rfl | hm
      · exact List.mem_cons_self _ _
      · exact List.mem_cons_of_mem _ hm
    obtain ⟨c, hc, hcr⟩ := List.mem_filterMap.mp hrfl
    obtain ⟨tc, htc, heq⟩ := Option.map_eq_some'.mp hcr
    subst heq
    have hmemc : ∀ {x : Nat × RunningApp},
        x ∈ apps.filterMap (fun app => app.started_at.map fun t => (t, app)) →
        (x = p ∨ x ∈ tl) := by
      intro x hx
      rw [hfl] at hx
      exact List.mem_cons.mp hx
    have htcm : tc = m := by
      have h5 : m ≤ tc := h3 (m, a) (hmemc hmem)
      have h6 : tc ≤ m := by
        have := hmax c hc
        rw [htc] at this
        simpa using this
      omega
    rw [htcm] at htc hmaxr h4
    refine ⟨c, hc, ?_, htc, ?_⟩
    · rw [resolve_latest_app_def, if_neg (by simp [hne]), hmaxr]
    · intro d hd hds
      have hmd : (m, d) ∈ apps.filterMap fun app => app.started_at.map fun t => (t, app) :=
        List.mem_filterMap.mpr ⟨d, hd, by rw [hds]; rfl⟩
      exact h4 (m, d) (hmemc hmd) rfl

/-- Witness for C10: two contexts tied at `started_at = 5`; the greater
appid `200` wins. -/
theorem c10_latest_tiebreak_witness :
    ∃ c ∈ [(⟨"100", none, some 5⟩ : RunningApp), ⟨"200", none, some 5⟩],
      resolve_latest_app [⟨"100", none, some 5⟩, ⟨"200", none, some 5⟩] = .ok ⟨c.appid⟩ ∧
      c.started_at = some 5 ∧
      ∀ d ∈ [(⟨"100", none, some 5⟩ : RunningApp), ⟨"200", none, some 5⟩],
        d.started_at = some 5 → d.appid ≤ c.appid :=
  c10_latest_tiebreak [⟨"100", none, some 5⟩, ⟨"200", none, some 5⟩] 5
    (by
      refine List.Pairwise.cons ?_ (List.pairwise_singleton _ _)
      intro b hb
      have hb' : b = ⟨"200", none, some 5⟩ := by simpa using hb
      subst hb'
      show ("100" : String) < "200"
      rw [String.lt_iff_toList_lt]
      decide)
    (by decide)
    ⟨⟨"100", none, some 5⟩, by decide, ⟨"200", none, some 5⟩, by decide, by decide, rfl, rfl⟩

/-! ## Init epilogue: exit-code mirroring and teardown (C9) -/

/-- Observable actions of the tail of `handle_init` after the child
process exits. -/
inductive InitStep where
  | removeDir (appid : String)
  | exitWith (code : Int)
deriving DecidableEq, Repr

/-- The epilogue of `handle_init` (`src/handlers.rs` lines 111-116, same
as `src/main.rs` lines 275-281): compute
`exit_code = status.code().unwrap_or(1)`, attempt
`let _ = fs::remove_dir_all(&app_dir)` — its result is discarded — and
exit with `exit_code`.  `status` is the child's exit code, `none` when the
child terminated abnormally without one; `removeResult` is whether the
deletion succeeded, which the code ignores. -/
def initEpilogue (appid : String) (status : Option Int) (_removeResult : Bool) :
    List InitStep :=
  let exit_code : Int :=
    match status with
    | some c => c
    | none => 1
  [InitStep.removeDir appid, InitStep.exitWith exit_code]

/-- C9: Exit-code mirroring and best-effort teardown on the init path:
the tool exits with the child's exit code, or with 1 when the child
terminated abnormally without one; the context directory is deleted
unconditionally after the child exits, and a deletion failure never
changes the exit code. -/
theorem c9_init_epilogue (appid : String) (status : Option Int) (r r' : Bool) :
    initEpilogue appid status r = initEpilogue appid status r' ∧
    initEpilogue appid status r
      = [InitStep.removeDir appid, InitStep.exitWith (status.getD 1)] ∧
    (∀ c, status = some c → InitStep.exitWith c ∈ initEpilogue appid status r) ∧
    (status = none → InitStep.exitWith 1 ∈ initEpilogue appid status r) := by
  refine ⟨rfl, ?_, ?_, ?_⟩
  · cases status <;> rfl
  · intro c hc
    subst hc
    simp [initEpilogue]
  · intro hc
    subst hc
    simp [initEpilogue]

/-- Witness for C9: a child exit code of 7 is mirrored, whether or not
the directory deletion succeeds. -/
theorem c9_init_epilogue_witness :
    InitStep.exitWith 7 ∈ initEpilogue "123" (some 7) false :=
  (c9_init_epilogue "123" (some 7) false true).2.2.1 7 rfl
